import Mathlib

/-!
# A shallow embedding of `diffsniff/utils.py`

This file models the directory-comparison core of the diffsniff
repository (`diff_items`, `compare_one_way`, `match_case_insensitive`,
`CaseInsensitiveMembershipDict`, and the pieces of the Python standard
library they lean on: `os.walk`, `shutil.ignore_patterns` / `fnmatch`,
`filecmp.cmp(shallow=False)`), and proves properties of the model.

The filesystem is modelled as a tree of nodes; machine-level details are
abstracted as follows:

* file contents are lists of byte values, `os.path.getsize` is the
  content length, and `os.path.getmtime` is an integer timestamp (only
  order and equality of mtimes matter to the code);
* a file carries a `readable` flag (POSIX read permission) and a
  directory a `listable` flag (read permission on the directory; search
  permission is assumed throughout, so `os.path.exists` / `stat` / p`open`
  work through an unlistable directory while `os.scandir` and
  `os.listdir` on it raise `PermissionError`);
* Python `str.lower` is modelled by mapping `Char.toLower` over the
  characters (the ASCII case map; the filenames of interest are ASCII);
* the exceptions the comparison code can actually raise are modelled
  with `Except`: `NotADirectoryError` (from `os.listdir` on a file) and
  `PermissionError` (from `os.listdir` on an unreadable directory, or
  from `filecmp` opening an unreadable file).  `os.walk` itself never
  raises: with the default `onerror=None` it silently skips any
  directory whose `scandir` fails, including a missing or unreadable
  root.
-/

/-- File content: a list of byte values. -/
abbrev Bytes := List Nat

/-- A node of the modelled POSIX filesystem. -/
inductive Node where
  | file (content : Bytes) (mtime : Int) (readable : Bool)
  | dir (listable : Bool) (entries : List (String × Node))

/-- The exceptions the modelled code can raise. -/
inductive Err where
  | notADir
  | permDenied
deriving Repr, DecidableEq

/-- The `ItemInfo` namedtuple of `diffsniff.utils`, fields in source
order.  `mtimes`/`sizes` are `Option` pairs because the code stores
`None` in them for unique files. -/
structure ItemInfo where
  equal : Bool
  unique : Bool
  mtimes : Option (Int × Int)
  left_to_right : Bool
  sizes : Option (Nat × Nat)
  other_name : Option String
deriving Repr, DecidableEq

/-- The result mapping built by `diff_items`: an insertion-ordered
association list (Python dicts preserve insertion order, and every
write in `compare_one_way` is guarded by the case-insensitive
membership test, so a write never overwrites an existing key).  The
value `none` is the "equal" sentinel (`result[item_name] = None`). -/
abbrev DiffResult := List (String × Option ItemInfo)

/-- Python `str.lower`, restricted to the ASCII case map. -/
def lowerStr (s : String) : String := ⟨s.data.map Char.toLower⟩

/-- `CaseInsensitiveMembershipDict.__contains__`: membership of
`key.lower()` among the lowered stored keys. -/
def containsCI (r : DiffResult) (key : String) : Bool :=
  r.any (fun e => lowerStr e.1 == lowerStr key)

/-- One parsed item of a `[...]` glob character class: an inclusive
character range (a lone literal `c` is the range `(c, c)`). -/
def classItems : List Char → List (Char × Char)
  | a :: '-' :: b :: rest => (a, b) :: classItems rest
  | a :: rest => (a, a) :: classItems rest
  | [] => []

/-- Scan for the closing `]` of a glob character class, returning the
content before it and the remainder after it. -/
def scanClose : List Char → Option (List Char × List Char)
  | [] => none
  | ']' :: rest => some ([], rest)
  | c :: rest => (scanClose rest).map (fun p => (c :: p.1, p.2))

/-- Split a `[...]` class (the argument is what follows the `[`) from
the rest of the pattern, following `fnmatch.translate`: a `]` coming
first, or right after a leading `!`, is class content; `none` when the
class is unterminated (then the `[` is a literal). -/
def takeClass (cs : List Char) : Option (List Char × List Char) :=
  match cs with
  | '!' :: ']' :: rest => (scanClose rest).map (fun p => ('!' :: ']' :: p.1, p.2))
  | '!' :: rest => (scanClose rest).map (fun p => ('!' :: p.1, p.2))
  | ']' :: rest => (scanClose rest).map (fun p => (']' :: p.1, p.2))
  | rest => scanClose rest

/-- Membership of a character in a parsed class body (leading `!`
negates). -/
def inClass (content : List Char) (c : Char) : Bool :=
  match content with
  | '!' :: items => !((classItems items).any (fun p => decide (p.1 ≤ c) && decide (c ≤ p.2)))
  | items => (classItems items).any (fun p => decide (p.1 ≤ c) && decide (c ≤ p.2))

/-- Recursion core of the glob matcher.  Every recursive call strictly
decreases `p.length + s.length` (a `*` either consumes a pattern or a
subject character; every other step consumes at least a subject or
pattern character), so with fuel `p.length + s.length + 1` the zero
case is unreachable and this computes exactly the unbounded
recursion. -/
def globGo : Nat → List Char → List Char → Bool
  | 0, _, _ => false
  | fuel + 1, p, s =>
    match p, s with
    | [], [] => true
    | [], _ :: _ => false
    | '*' :: ps, s =>
        globGo fuel ps s ||
          (match s with
           | [] => false
           | _ :: s2 => globGo fuel ('*' :: ps) s2)
    | '?' :: ps, _ :: s2 => globGo fuel ps s2
    | '?' :: _, [] => false
    | '[' :: ps, c :: s2 =>
        (match takeClass ps with
         | some (content, rest) => inClass content c && globGo fuel rest s2
         | none => ('[' == c) && globGo fuel ps s2)
    | '[' :: _, [] => false
    | a :: ps, c :: s2 => (a == c) && globGo fuel ps s2
    | _ :: _, [] => false

/-- `fnmatch.fnmatch` on POSIX (where `os.path.normcase` is the
identity): anchored shell-glob matching with `*`, `?` and `[...]`. -/
def globMatch (p : List Char) (s : List Char) : Bool :=
  globGo (p.length + s.length + 1) p s

/-- `shutil.ignore_patterns(*patterns)(path, names)` membership: does
`name` match at least one of the glob patterns? -/
def matchesAny (patterns : List String) (name : String) : Bool :=
  patterns.any (fun p => globMatch p.data name.data)

/-- Look an entry up by exact name in a directory listing. -/
def findEntry (entries : List (String × Node)) (name : String) : Option Node :=
  match entries with
  | [] => none
  | (k, v) :: rest => if k == name then some v else findEntry rest name

/-- Resolve a path (a list of name segments) against the filesystem:
`os.path.exists` / `stat` semantics.  Unaffected by `listable` (lookup
only needs search permission). -/
def lookupPath : Node → List String → Option Node
  | n, [] => some n
  | Node.dir _ es, s :: rest =>
      (match findEntry es s with
       | some n => lookupPath n rest
       | none => none)
  | Node.file _ _ _, _ :: _ => none

/-- One file yielded by the walk: its directory's segments relative to
the walked root, its name, and its content/mtime/readability. -/
structure WalkItem where
  rel : List String
  name : String
  content : Bytes
  mtime : Int
  readable : Bool
deriving Repr, DecidableEq

/-- The files of one directory listing, pruned by the
`files_to_prune` patterns, in listing order. -/
def fileItems (ignF : List String) (rel : List String) :
    List (String × Node) → List WalkItem
  | [] => []
  | (name, Node.file c m r) :: rest =>
      (if matchesAny ignF name then [] else [⟨rel, name, c, m, r⟩])
        ++ fileItems ignF rel rest
  | (_, Node.dir _ _) :: rest => fileItems ignF rel rest

mutual
/-- The `os.walk` loop of `compare_one_way`, fused with the in-place
pruning of `subdirs` and `files`: on an unlistable directory `scandir`
raises and `os.walk` (with `onerror=None`) silently skips the whole
subtree; otherwise the directory's (pruned) files are yielded before
recursing into its (pruned) subdirectories, in listing order. -/
def walkNode (ignD ignF : List String) (rel : List String) : Node → List WalkItem
  | Node.file _ _ _ => []
  | Node.dir false _ => []
  | Node.dir true es => fileItems ignF rel es ++ walkSubdirs ignD ignF rel es

/-- Recurse into the non-pruned subdirectories of a listing. -/
def walkSubdirs (ignD ignF : List String) (rel : List String) :
    List (String × Node) → List WalkItem
  | [] => []
  | (name, n) :: rest =>
      (match n with
       | Node.dir _ _ =>
           if matchesAny ignD name then []
           else walkNode ignD ignF (rel ++ [name]) n
       | Node.file _ _ _ => []) ++ walkSubdirs ignD ignF rel rest
end

/-- `os.walk(this_path)`: when the root does not resolve to a
directory (missing path, or a file), the initial `scandir` raises and
the walk silently yields nothing. -/
def walkRoot (ignD ignF : List String) (fs : Node) (root : List String) :
    List WalkItem :=
  match lookupPath fs root with
  | some n => walkNode ignD ignF [] n
  | none => []

/-- The forward-slash join producing the `result` key
(`Path(os.path.join(rel_path, filename)).as_posix()`; at the walk root
`rel_path` is `'.'` and the key is the bare filename). -/
def joinSegs : List String → String
  | [] => ""
  | [s] => s
  | s :: rest => s ++ "/" ++ joinSegs rest

/-- The key of a walk item in the result mapping. -/
def itemKey (it : WalkItem) : String := joinSegs (it.rel ++ [it.name])

/-- First name in a directory listing whose lowering equals the
lowering of `basename` (the loop of `match_case_insensitive` over
`os.listdir`; the listing contains files and subdirectories alike). -/
def firstLowerMatch : List (String × Node) → String → Option String
  | [], _ => none
  | (k, _) :: rest, b =>
      if lowerStr k == lowerStr b then some k else firstLowerMatch rest b

/-- `match_case_insensitive(absolute_path)` from `diffsniff.utils`,
with the path split into its directory segments and basename.  Returns
the matched name in its actual case (the caller re-joins it with the
directory), `none` when the directory is missing or holds no match.
`os.listdir` raises `NotADirectoryError` when the "directory" is a
file and `PermissionError` when it is unreadable; both propagate. -/
def match_case_insensitive (fs : Node) (dirSegs : List String)
    (basename : String) : Except Err (Option String) :=
  match lookupPath fs dirSegs with
  | none => Except.ok none
  | some (Node.file _ _ _) => Except.error Err.notADir
  | some (Node.dir false _) => Except.error Err.permDenied
  | some (Node.dir true es) => Except.ok (firstLowerMatch es basename)

/-- `filecmp.cmp(f1, f2, shallow=False)` on two regular files: when
the stat sizes differ it returns `False` without opening either file;
otherwise it opens and byte-compares both, raising `PermissionError`
if either is unreadable.  mtimes never influence the outcome. -/
def filecmpCmp (c1 : Bytes) (r1 : Bool) (c2 : Bytes) (r2 : Bool) :
    Except Err Bool :=
  if c1.length = c2.length then
    if r1 && r2 then Except.ok (c1 == c2) else Except.error Err.permDenied
  else Except.ok false

/-- The classification body of `compare_one_way`'s per-file loop (the
code after the already-present guard), deciding the value stored under
the item's key: the unique-file `ItemInfo`, the differing-files
`ItemInfo`, or the `None` sentinel for equal files. -/
def classifyItem (fs : Node) (otherPath : List String) (reverse : Bool)
    (it : WalkItem) : Except Err (Option ItemInfo) :=
  let otherDir := otherPath ++ it.rel
  let fileOther : Except Err (Option String) :=
    if (lookupPath fs (otherDir ++ [it.name])).isSome then
      Except.ok (some it.name)
    else match_case_insensitive fs otherDir it.name
  match fileOther with
  | Except.error e => Except.error e
  | Except.ok none =>
      Except.ok (some ⟨false, true, none, !reverse, none, none⟩)
  | Except.ok (some otherBase) =>
      match lookupPath fs (otherDir ++ [otherBase]) with
      | some (Node.file c2 m2 r2) =>
          let otherName := if otherBase == it.name then none
            else some (joinSegs (it.rel ++ [otherBase]))
          (match filecmpCmp it.content it.readable c2 r2 with
           | Except.error e => Except.error e
           | Except.ok true => Except.ok none
           | Except.ok false =>
               Except.ok (some ⟨false, false, some (it.mtime, m2),
                 decide (it.mtime > m2),
                 some (it.content.length, c2.length), otherName⟩))
      | _ => Except.ok (some ⟨false, true, none, !reverse, none, none⟩)

/-- One iteration of `compare_one_way`'s file loop: skip when a
case-insensitively equal key is already present, otherwise classify
and store under the item's key. -/
def processItem (fs : Node) (otherPath : List String) (reverse : Bool)
    (result : DiffResult) (it : WalkItem) : Except Err DiffResult :=
  if containsCI result (itemKey it) then Except.ok result
  else
    match classifyItem fs otherPath reverse it with
    | Except.error e => Except.error e
    | Except.ok v => Except.ok (result ++ [(itemKey it, v)])

/-- Run the file loop over a list of walk items, threading the result
and propagating the first raised exception. -/
def processAll (fs : Node) (otherPath : List String) (reverse : Bool)
    (result : DiffResult) : List WalkItem → Except Err DiffResult
  | [] => Except.ok result
  | it :: rest =>
      match processItem fs otherPath reverse result it with
      | Except.error e => Except.error e
      | Except.ok r2 => processAll fs otherPath reverse r2 rest

/-- `compare_one_way(this_path, other_path, ignore_dirs, ignore_files,
result, reverse)` from `diffsniff.utils`. -/
def compare_one_way (fs : Node) (this_path other_path : List String)
    (ignore_dirs ignore_files : List String) (result : DiffResult)
    (reverse : Bool) : Except Err DiffResult :=
  processAll fs other_path reverse result
    (walkRoot ignore_dirs ignore_files fs this_path)

/-- `diff_items(this_path, other_path, ignore_dirs, ignore_files)`
from `diffsniff.utils`: two passes of `compare_one_way` over a shared
accumulator, the second with the roots swapped and `reverse=True`. -/
def diff_items (fs : Node) (this_path other_path : List String)
    (ignore_dirs ignore_files : List String) : Except Err DiffResult :=
  match compare_one_way fs this_path other_path ignore_dirs ignore_files [] false with
  | Except.error e => Except.error e
  | Except.ok r1 =>
      compare_one_way fs other_path this_path ignore_dirs ignore_files r1 true

/-- Recursive listability of every directory of a subtree (read
permission on all directories), the condition under which `os.walk`
reaches every file. -/
def Node.allListable : Node → Bool
  | Node.file _ _ _ => true
  | Node.dir b es => b && allListableEntries es
where allListableEntries : List (String × Node) → Bool
  | [] => true
  | (_, n) :: rest => n.allListable && allListableEntries rest

/-- Shape of every value `compare_one_way` ever stores: the equal
sentinel, a unique-file record, or a differing-files record whose
direction flag is the strict mtime comparison. -/
def EntryShape (v : Option ItemInfo) : Prop :=
  v = none ∨ (∃ b, v = some ⟨false, true, none, b, none, none⟩) ∨
    ∃ m1 m2 s1 s2 onm, v = some ⟨false, false, some (m1, m2),
      decide (m1 > m2), some (s1, s2), onm⟩

/-- No two stored keys are equal ignoring case. -/
def PairwiseCI (r : DiffResult) : Prop :=
  r.Pairwise (fun a b => lowerStr a.1 ≠ lowerStr b.1)

/-- Concrete filesystem for exercising a differing-content pair:
`A/f.txt` (2 bytes, mtime 7) vs `B/f.txt` (1 byte, mtime 4). -/
def fsC1w : Node := Node.dir true
  [("A", Node.dir true [("f.txt", Node.file [1, 2] 7 true)]),
   ("B", Node.dir true [("f.txt", Node.file [3] 4 true)])]

/-- Parameterised filesystem for the case-variant matching scenario:
tree `A` holds `d/<n>` and tree `B` holds `d/<b>`. -/
def fsC2 (n b : String) (c1 c2 : Bytes) (m1 m2 : Int) : Node := Node.dir true
  [("A", Node.dir true [("d", Node.dir true [(n, Node.file c1 m1 true)])]),
   ("B", Node.dir true [("d", Node.dir true [(b, Node.file c2 m2 true)])])]

/-- Filesystem with no `A` root at all; `B` holds one file. -/
def fsC3 : Node := Node.dir true
  [("B", Node.dir true [("b.txt", Node.file [119] 3 true)])]

/-- Small concrete two-sided filesystem (one shared equal file, one
unique per side). -/
def fsC4w : Node := Node.dir true
  [("A", Node.dir true [("a.txt", Node.file [104] 1 true),
                        ("shared.txt", Node.file [120] 2 true)]),
   ("B", Node.dir true [("b.txt", Node.file [119] 3 true),
                        ("shared.txt", Node.file [120] 4 true)])]

/-- Parameterised filesystem for the symmetry scenario: both roots hold
`f.txt` (differing contents), `A` additionally holds `u.txt` and `B`
additionally holds `v.txt`. -/
def fsC5 (c1 : Bytes) (m1 : Int) (c2 : Bytes) (m2 : Int)
    (cu : Bytes) (mu : Int) (cv : Bytes) (mv : Int) : Node := Node.dir true
  [("A", Node.dir true [("f.txt", Node.file c1 m1 true),
                        ("u.txt", Node.file cu mu true)]),
   ("B", Node.dir true [("f.txt", Node.file c2 m2 true),
                        ("v.txt", Node.file cv mv true)])]

/-- Concrete mtime-tie filesystem: both sides hold `f` with different
one-byte contents and the same mtime 5. -/
def fsC5tie : Node := Node.dir true
  [("A", Node.dir true [("f", Node.file [1] 5 true)]),
   ("B", Node.dir true [("f", Node.file [2] 5 true)])]

/-- Concrete filesystem with a byte-identical pair (`eq.txt`) and a pair
that agrees in mtime and size but differs in content (`meta.txt`). -/
def fsC6w : Node := Node.dir true
  [("A", Node.dir true [("eq.txt", Node.file [9, 9] 5 true),
                        ("meta.txt", Node.file [1] 5 true)]),
   ("B", Node.dir true [("eq.txt", Node.file [9, 9] 8 true),
                        ("meta.txt", Node.file [2] 5 true)])]

/-- Concrete filesystem where `only.txt` exists solely under `A`. -/
def fsC7w : Node := Node.dir true
  [("A", Node.dir true [("only.txt", Node.file [1] 1 true)]),
   ("B", Node.dir true [])]

/-- Concrete filesystem exercising the ignore filters: a `build`
directory and a `skip.txt` file on the `A` side, plus a surviving
`keep.txt` on the `B` side. -/
def fsC8w : Node := Node.dir true
  [("A", Node.dir true [("build", Node.dir true [("x.txt", Node.file [1] 1 true)]),
                        ("skip.txt", Node.file [2] 2 true)]),
   ("B", Node.dir true [("keep.txt", Node.file [3] 3 true)])]

/-- Concrete filesystem with an unreadable file: `B/f` cannot be
opened, and both `f` files have equal sizes, so `filecmp` must open
them. -/
def fsC9read : Node := Node.dir true
  [("A", Node.dir true [("f", Node.file [1] 1 true)]),
   ("B", Node.dir true [("f", Node.file [2] 2 false)])]

/-- Concrete filesystem with an unlistable directory `A/d` next to an
ordinary shared file `g`. -/
def fsC9list : Node := Node.dir true
  [("A", Node.dir true [("d", Node.dir false [("h", Node.file [7] 7 true)]),
                        ("g", Node.file [1] 1 true)]),
   ("B", Node.dir true [("g", Node.file [1] 9 true)])]

/-- Concrete filesystem where `A/d` is unlistable but traversable, so
the first pass misses `d/f` while the second pass can still resolve it
under `A`. -/
def fsC10 : Node := Node.dir true
  [("A", Node.dir true [("d", Node.dir false [("f", Node.file [1] 10 true)])]),
   ("B", Node.dir true [("d", Node.dir true [("f", Node.file [2] 20 true)])])]

theorem lowerStr_append (a b : String) :
    lowerStr (a ++ b) = lowerStr a ++ lowerStr b := by
  apply String.ext
  simp [lowerStr]

theorem containsCI_append (r t : DiffResult) (k : String) :
    containsCI (r ++ t) k = (containsCI r k || containsCI t k) := by
  simp [containsCI]

theorem containsCI_congr {k1 k2 : String} (r : DiffResult)
    (h : lowerStr k1 = lowerStr k2) : containsCI r k1 = containsCI r k2 := by
  simp [containsCI, h]

theorem containsCI_of_mem {r : DiffResult} {k : String} {v : Option ItemInfo}
    (h : (k, v) ∈ r) : containsCI r k = true := by
  simp only [containsCI, List.any_eq_true]
  exact ⟨(k, v), h, by simp⟩

theorem containsCI_false_elem {r : DiffResult} {k : String}
    (h : containsCI r k = false) :
    ∀ e ∈ r, lowerStr e.1 ≠ lowerStr k := by
  intro e he
  simp only [containsCI, List.any_eq_false] at h
  simpa using h e he

theorem findEntry_mem {es : List (String × Node)} {s : String} {v : Node}
    (h : findEntry es s = some v) : (s, v) ∈ es := by
  induction es with
  | nil => simp [findEntry] at h
  | cons e rest ih =>
    obtain ⟨k, n⟩ := e
    simp only [findEntry] at h
    split at h
    · next hk =>
      cases h
      have : k = s := by simpa using hk
      subst this
      exact List.mem_cons_self _ _
    · exact List.mem_cons_of_mem _ (ih h)

theorem firstLowerMatch_lower {es : List (String × Node)} {b k : String}
    (h : firstLowerMatch es b = some k) : lowerStr k = lowerStr b := by
  induction es with
  | nil => simp [firstLowerMatch] at h
  | cons e rest ih =>
    obtain ⟨k2, n⟩ := e
    simp only [firstLowerMatch] at h
    split at h
    · next hk =>
      cases h
      simpa using hk
    · exact ih h

theorem lookupPath_append (t : Node) (p q : List String) :
    lookupPath t (p ++ q) =
      (match lookupPath t p with
       | some u => lookupPath u q
       | none => none) := by
  induction p generalizing t with
  | nil => simp [lookupPath]
  | cons s rest ih =>
    cases t with
    | file c m r => simp [lookupPath]
    | dir b es =>
      simp only [List.cons_append, lookupPath]
      cases findEntry es s with
      | none => simp
      | some u => simpa using ih u

theorem lookupPath_append_none {fs : Node} {p : List String}
    (h : lookupPath fs p = none) (q : List String) :
    lookupPath fs (p ++ q) = none := by
  rw [lookupPath_append, h]

theorem lookupPath_append_some {fs u : Node} {p : List String}
    (h : lookupPath fs p = some u) (q : List String) :
    lookupPath fs (p ++ q) = lookupPath u q := by
  rw [lookupPath_append, h]

theorem processItem_ok {fs : Node} {o : List String} {rev : Bool}
    {r r2 : DiffResult} {it : WalkItem}
    (h : processItem fs o rev r it = Except.ok r2) :
    (containsCI r (itemKey it) = true ∧ r2 = r) ∨
    (containsCI r (itemKey it) = false ∧
      ∃ v, classifyItem fs o rev it = Except.ok v ∧
        r2 = r ++ [(itemKey it, v)]) := by
  unfold processItem at h
  split at h
  · next hc =>
    left
    cases h
    exact ⟨hc, rfl⟩
  · next hc =>
    right
    refine ⟨by simpa using hc, ?_⟩
    split at h
    · cases h
    · next v hv =>
      cases h
      exact ⟨v, hv, rfl⟩

theorem processAll_decomp {fs : Node} {o : List String} {rev : Bool} :
    ∀ {xs : List WalkItem} {r r2 : DiffResult},
    processAll fs o rev r xs = Except.ok r2 →
    ∃ t, r2 = r ++ t ∧ ∀ e ∈ t, ∃ it, it ∈ xs ∧ e.1 = itemKey it ∧
      classifyItem fs o rev it = Except.ok e.2 ∧
      containsCI r (itemKey it) = false := by
  intro xs
  induction xs with
  | nil =>
    intro r r2 h
    cases h
    exact ⟨[], by simp⟩
  | cons it rest ih =>
    intro r r2 h
    unfold processAll at h
    split at h
    · cases h
    · next rm hm =>
      rcases processItem_ok hm with ⟨hc, rfl⟩ | ⟨hc, v, hv, rfl⟩
      · obtain ⟨t, rfl, ht⟩ := ih h
        refine ⟨t, rfl, fun e he => ?_⟩
        obtain ⟨it2, h1, h2, h3, h4⟩ := ht e he
        exact ⟨it2, List.mem_cons_of_mem _ h1, h2, h3, h4⟩
      · obtain ⟨t, rfl, ht⟩ := ih h
        refine ⟨(itemKey it, v) :: t, by simp, fun e he => ?_⟩
        rcases List.mem_cons.mp he with rfl | he2
        · exact ⟨it, List.mem_cons_self _ _, rfl, hv, hc⟩
        · obtain ⟨it2, h1, h2, h3, h4⟩ := ht e he2
          refine ⟨it2, List.mem_cons_of_mem _ h1, h2, h3, ?_⟩
          rw [containsCI_append] at h4
          exact (Bool.or_eq_false_iff.mp h4).1

theorem processAll_mem_mono {fs : Node} {o : List String} {rev : Bool}
    {xs : List WalkItem} {r r2 : DiffResult} {e : String × Option ItemInfo}
    (he : e ∈ r) (h : processAll fs o rev r xs = Except.ok r2) : e ∈ r2 := by
  obtain ⟨t, rfl, -⟩ := processAll_decomp h
  exact List.mem_append_of_mem_left _ he

theorem processAll_containsCI_mono {fs : Node} {o : List String} {rev : Bool}
    {xs : List WalkItem} {r r2 : DiffResult} {k : String}
    (hc : containsCI r k = true) (h : processAll fs o rev r xs = Except.ok r2) :
    containsCI r2 k = true := by
  obtain ⟨t, rfl, -⟩ := processAll_decomp h
  rw [containsCI_append, hc, Bool.true_or]

theorem processAll_claims {fs : Node} {o : List String} {rev : Bool} :
    ∀ {xs : List WalkItem} {r r2 : DiffResult} {it : WalkItem},
    processAll fs o rev r xs = Except.ok r2 → it ∈ xs →
    containsCI r2 (itemKey it) = true := by
  intro xs
  induction xs with
  | nil => intro r r2 it h hm; cases hm
  | cons x rest ih =>
    intro r r2 it h hm
    unfold processAll at h
    split at h
    · cases h
    · next rm hm2 =>
      rcases List.mem_cons.mp hm with rfl | hm3
      · have hx : containsCI rm (itemKey it) = true := by
          rcases processItem_ok hm2 with ⟨hc, rfl⟩ | ⟨hc, v, hv, rfl⟩
          · exact hc
          · rw [containsCI_append]
            simp [containsCI]
        exact processAll_containsCI_mono hx h
      · exact ih h hm3

theorem processAll_pairwise {fs : Node} {o : List String} {rev : Bool} :
    ∀ {xs : List WalkItem} {r r2 : DiffResult},
    PairwiseCI r → processAll fs o rev r xs = Except.ok r2 → PairwiseCI r2 := by
  intro xs
  induction xs with
  | nil => intro r r2 hp h; cases h; exact hp
  | cons it rest ih =>
    intro r r2 hp h
    unfold processAll at h
    split at h
    · cases h
    · next rm hm =>
      rcases processItem_ok hm with ⟨hc, rfl⟩ | ⟨hc, v, hv, rfl⟩
      · exact ih hp h
      · refine ih ?_ h
        unfold PairwiseCI
        rw [List.pairwise_append]
        refine ⟨hp, by simp, fun a ha b hb => ?_⟩
        rcases List.mem_singleton.mp hb with rfl
        exact containsCI_false_elem hc a ha

theorem mem_first_decomp {α : Type} [DecidableEq α] {a : α} {xs : List α}
    (h : a ∈ xs) : ∃ s t, xs = s ++ a :: t ∧ a ∉ s := by
  induction xs with
  | nil => cases h
  | cons x rest ih =>
    by_cases hx : a = x
    · subst hx
      exact ⟨[], rest, rfl, by simp⟩
    · rcases List.mem_cons.mp h with rfl | h2
      · exact absurd rfl hx
      · obtain ⟨s, t, rfl, hns⟩ := ih h2
        exact ⟨x :: s, t, rfl, by simp [hns, hx]⟩

theorem processAll_first_write {fs : Node} {o : List String} {rev : Bool} :
    ∀ {pre : List WalkItem} {post : List WalkItem} {r r2 : DiffResult}
    {it : WalkItem},
    (∀ x ∈ pre, lowerStr (itemKey x) ≠ lowerStr (itemKey it)) →
    containsCI r (itemKey it) = false →
    processAll fs o rev r (pre ++ it :: post) = Except.ok r2 →
    ∃ v, classifyItem fs o rev it = Except.ok v ∧ (itemKey it, v) ∈ r2 := by
  intro pre
  induction pre with
  | nil =>
    intro post r r2 it hpre hc h
    rw [List.nil_append] at h
    unfold processAll at h
    split at h
    · cases h
    · next rm hm =>
      rcases processItem_ok hm with ⟨hc2, rfl⟩ | ⟨hc2, v, hv, rfl⟩
      · rw [hc] at hc2; cases hc2
      · exact ⟨v, hv, processAll_mem_mono (by simp) h⟩
  | cons x pre2 ih =>
    intro post r r2 it hpre hc h
    rw [List.cons_append] at h
    unfold processAll at h
    split at h
    · cases h
    · next rm hm =>
      have hcm : containsCI rm (itemKey it) = false := by
        rcases processItem_ok hm with ⟨hc2, rfl⟩ | ⟨hc2, v, hv, rfl⟩
        · exact hc
        · rw [containsCI_append, hc, Bool.false_or]
          simp only [containsCI, List.any_eq_false]
          intro e he
          rcases List.mem_singleton.mp he with rfl
          simpa using hpre x (List.mem_cons_self _ _)
      exact ih (fun y hy => hpre y (List.mem_cons_of_mem _ hy)) hcm h

theorem classifyItem_shape {fs : Node} {o : List String} {rev : Bool}
    {it : WalkItem} {v : Option ItemInfo}
    (h : classifyItem fs o rev it = Except.ok v) : EntryShape v := by
  simp only [classifyItem] at h
  split at h
  · cases h
  · cases h
    right; left
    exact ⟨_, rfl⟩
  · split at h
    · split at h
      · cases h
      · cases h
        left; rfl
      · cases h
        right; right
        exact ⟨_, _, _, _, _, rfl⟩
    · cases h
      right; left
      exact ⟨_, rfl⟩

theorem classifyItem_found {fs : Node} {o : List String} {rev : Bool}
    {it : WalkItem} {v : Option ItemInfo}
    (h : classifyItem fs o rev it = Except.ok v)
    (hne : v ≠ some ⟨false, true, none, !rev, none, none⟩) :
    ∃ ob c2 m2 r2, lowerStr ob = lowerStr it.name ∧
      lookupPath fs (o ++ it.rel ++ [ob]) = some (Node.file c2 m2 r2) := by
  simp only [classifyItem] at h
  split at h
  · cases h
  · cases h; exact absurd rfl hne
  · next ob hob =>
    split at h
    · next c2 m2 r2 hl =>
      refine ⟨ob, c2, m2, r2, ?_, hl⟩
      by_cases hex : (lookupPath fs (o ++ it.rel ++ [it.name])).isSome = true
      · rw [if_pos hex] at hob
        cases hob; rfl
      · rw [if_neg hex] at hob
        unfold match_case_insensitive at hob
        split at hob
        · simp at hob
        · cases hob
        · cases hob
        · exact firstLowerMatch_lower (Except.ok.inj hob)
    · cases h; exact absurd rfl hne

theorem allListableEntries_mem :
    ∀ {es : List (String × Node)} {k : String} {n : Node},
    Node.allListable.allListableEntries es = true → (k, n) ∈ es →
    n.allListable = true := by
  intro es
  induction es with
  | nil => intro k n _ hm; cases hm
  | cons e rest ih =>
    intro k n hall hm
    obtain ⟨k2, n2⟩ := e
    rw [Node.allListable.allListableEntries, Bool.and_eq_true] at hall
    rcases List.mem_cons.mp hm with heq | hm2
    · cases heq
      exact hall.1
    · exact ih hall.2 hm2

theorem lookupPath_nil (t : Node) : lookupPath t [] = some t := by
  cases t <;> rfl

theorem allListable_lookup :
    ∀ {p : List String} {t u : Node},
    t.allListable = true → lookupPath t p = some u → u.allListable = true := by
  intro p
  induction p with
  | nil =>
    intro t u ht h
    rw [lookupPath_nil] at h
    cases h
    exact ht
  | cons s rest ih =>
    intro t u ht h
    cases t with
    | file c m r => cases h
    | dir b es =>
      rw [Node.allListable, Bool.and_eq_true] at ht
      simp only [lookupPath] at h
      split at h
      · next n hf =>
        exact ih (allListableEntries_mem ht.2 (findEntry_mem hf)) h
      · cases h

theorem fileItems_mem {ignF rel : List String} :
    ∀ {es : List (String × Node)} {x : WalkItem},
    x ∈ fileItems ignF rel es →
    x.rel = rel ∧ matchesAny ignF x.name = false := by
  intro es
  induction es with
  | nil => intro x hx; cases hx
  | cons e rest ih =>
    intro x hx
    obtain ⟨name, n⟩ := e
    cases n with
    | file c m r =>
      rw [fileItems] at hx
      rcases List.mem_append.mp hx with h1 | h2
      · split at h1
        · cases h1
        · next hpr =>
          rcases List.mem_singleton.mp h1 with rfl
          exact ⟨rfl, by simpa using hpr⟩
      · exact ih h2
    | dir b es2 =>
      rw [fileItems] at hx
      exact ih hx

mutual
theorem walkNode_sound (ignD ignF : List String) :
    ∀ (t : Node) (rel : List String) (x : WalkItem),
    x ∈ walkNode ignD ignF rel t →
    (∃ ext, x.rel = rel ++ ext ∧ ∀ d ∈ ext, matchesAny ignD d = false) ∧
    matchesAny ignF x.name = false := by
  intro t rel x hx
  match t with
  | Node.file c m r => cases hx
  | Node.dir false es => cases hx
  | Node.dir true es =>
    rw [walkNode] at hx
    rcases List.mem_append.mp hx with h1 | h2
    · obtain ⟨h3, h4⟩ := fileItems_mem h1
      exact ⟨⟨[], by simp [h3], by simp⟩, h4⟩
    · exact walkSubdirs_sound ignD ignF es rel x h2

theorem walkSubdirs_sound (ignD ignF : List String) :
    ∀ (es : List (String × Node)) (rel : List String) (x : WalkItem),
    x ∈ walkSubdirs ignD ignF rel es →
    (∃ ext, x.rel = rel ++ ext ∧ ∀ d ∈ ext, matchesAny ignD d = false) ∧
    matchesAny ignF x.name = false := by
  intro es rel x hx
  match es with
  | [] => cases hx
  | (name, n) :: rest =>
    rw [walkSubdirs.eq_def] at hx
    simp only at hx
    rcases List.mem_append.mp hx with h1 | h2
    · match n with
      | Node.file c m r => cases h1
      | Node.dir b es2 =>
        simp only at h1
        split at h1
        · cases h1
        · next hpr =>
          obtain ⟨⟨ext, hrel, hext⟩, hname⟩ :=
            walkNode_sound ignD ignF (Node.dir b es2) (rel ++ [name]) x h1
          refine ⟨⟨name :: ext, by simpa using hrel, ?_⟩, hname⟩
          intro d hd
          rcases List.mem_cons.mp hd with rfl | hd2
          · simpa using hpr
          · exact hext d hd2
    · exact walkSubdirs_sound ignD ignF rest rel x h2
end

theorem mem_fileItems_of {ignF rel : List String} {name : String}
    {c : Bytes} {m : Int} {rd : Bool} :
    ∀ {es : List (String × Node)},
    (name, Node.file c m rd) ∈ es → matchesAny ignF name = false →
    (⟨rel, name, c, m, rd⟩ : WalkItem) ∈ fileItems ignF rel es := by
  intro es
  induction es with
  | nil => intro hm _; cases hm
  | cons e rest ih =>
    intro hm hpr
    rcases List.mem_cons.mp hm with heq | hm2
    · cases heq
      rw [fileItems, if_neg (by simp [hpr])]
      simp
    · obtain ⟨k2, n2⟩ := e
      cases n2 with
      | file c2 m2 r2 =>
        rw [fileItems]
        exact List.mem_append_of_mem_right _ (ih hm2 hpr)
      | dir b2 es2 =>
        rw [fileItems]
        exact ih hm2 hpr

theorem mem_walkSubdirs_of {ignD ignF rel : List String} {d : String}
    {b : Bool} {es2 : List (String × Node)} {x : WalkItem} :
    ∀ {es : List (String × Node)},
    (d, Node.dir b es2) ∈ es → matchesAny ignD d = false →
    x ∈ walkNode ignD ignF (rel ++ [d]) (Node.dir b es2) →
    x ∈ walkSubdirs ignD ignF rel es := by
  intro es
  induction es with
  | nil => intro hm _ _; cases hm
  | cons e rest ih =>
    intro hm hpr hx
    obtain ⟨k2, n2⟩ := e
    rw [walkSubdirs.eq_def]
    simp only
    rcases List.mem_cons.mp hm with heq | hm2
    · cases heq
      rw [if_neg (by simp [hpr])]
      exact List.mem_append_of_mem_left _ hx
    · exact List.mem_append_of_mem_right _ (ih hm2 hpr hx)

theorem walkNode_complete {ignD ignF : List String} :
    ∀ (ext : List String) (t : Node) (rel : List String) (n : String)
    (c : Bytes) (m : Int) (rd : Bool),
    t.allListable = true →
    lookupPath t (ext ++ [n]) = some (Node.file c m rd) →
    (∀ d ∈ ext, matchesAny ignD d = false) →
    matchesAny ignF n = false →
    (⟨rel ++ ext, n, c, m, rd⟩ : WalkItem) ∈ walkNode ignD ignF rel t := by
  intro ext
  induction ext with
  | nil =>
    intro t rel n c m rd hall hl hextd hf
    cases t with
    | file c2 m2 r2 => cases hl
    | dir b es =>
      rw [Node.allListable, Bool.and_eq_true] at hall
      rcases hall with ⟨hb, hes⟩
      cases b with
      | false => cases hb
      | true =>
        simp only [List.nil_append, lookupPath] at hl
        split at hl
        · next u hfe =>
          cases hl
          rw [walkNode]
          have := @mem_fileItems_of ignF rel n c m rd es (findEntry_mem hfe) hf
          simpa using List.mem_append_of_mem_left _ this
        · cases hl
  | cons d ext2 ih =>
    intro t rel n c m rd hall hl hextd hf
    cases t with
    | file c2 m2 r2 => cases hl
    | dir b es =>
      rw [Node.allListable, Bool.and_eq_true] at hall
      rcases hall with ⟨hb, hes⟩
      cases b with
      | false => cases hb
      | true =>
        simp only [List.cons_append, lookupPath] at hl
        split at hl
        · next u hfe =>
          cases u with
          | file c3 m3 r3 =>
            cases ext2 with
            | nil => cases hl
            | cons a l => cases hl
          | dir b3 es3 =>
            have hu : (Node.dir b3 es3).allListable = true :=
              allListableEntries_mem hes (findEntry_mem hfe)
            have hmem := ih (Node.dir b3 es3) (rel ++ [d]) n c m rd hu hl
              (fun d2 hd2 => hextd d2 (List.mem_cons_of_mem _ hd2)) hf
            have hsub := mem_walkSubdirs_of (findEntry_mem hfe)
              (hextd d (List.mem_cons_self _ _)) hmem
            rw [walkNode]
            have : rel ++ d :: ext2 = (rel ++ [d]) ++ ext2 := by simp
            rw [this]
            exact List.mem_append_of_mem_right _ hsub
        · cases hl

theorem diff_items_decomp {fs : Node} {pA pB ignD ignF : List String}
    {r : DiffResult}
    (h : diff_items fs pA pB ignD ignF = Except.ok r) :
    ∃ r1, compare_one_way fs pA pB ignD ignF [] false = Except.ok r1 ∧
      compare_one_way fs pB pA ignD ignF r1 true = Except.ok r := by
  unfold diff_items at h
  split at h
  · cases h
  · next r1 h1 => exact ⟨r1, h1, h⟩

theorem diff_entry_shape {fs : Node} {pA pB ignD ignF : List String}
    {r : DiffResult}
    (h : diff_items fs pA pB ignD ignF = Except.ok r) :
    ∀ e ∈ r, EntryShape e.2 := by
  obtain ⟨r1, h1, h2⟩ := diff_items_decomp h
  intro e he
  obtain ⟨t1, rfl, ht1⟩ := processAll_decomp h1
  obtain ⟨t2, rfl, ht2⟩ := processAll_decomp h2
  rcases List.mem_append.mp he with he1 | he2
  · obtain ⟨it, -, -, hcl, -⟩ := ht1 e he1
    exact classifyItem_shape hcl
  · obtain ⟨it, -, -, hcl, -⟩ := ht2 e he2
    exact classifyItem_shape hcl

theorem joinSegs_cons {a : String} {l : List String} (h : l ≠ []) :
    joinSegs (a :: l) = a ++ "/" ++ joinSegs l := by
  cases l with
  | nil => exact absurd rfl h
  | cons b rest => rfl

theorem joinSegs_lower_congr {n1 n2 : String}
    (h : lowerStr n1 = lowerStr n2) :
    ∀ rel : List String,
    lowerStr (joinSegs (rel ++ [n1])) = lowerStr (joinSegs (rel ++ [n2])) := by
  intro rel
  induction rel with
  | nil => exact h
  | cons a rest ih =>
    simp only [List.cons_append]
    rw [joinSegs_cons (l := rest ++ [n1]) (by simp),
      joinSegs_cons (l := rest ++ [n2]) (by simp),
      lowerStr_append, lowerStr_append, ih, lowerStr_append, lowerStr_append]

theorem walkRoot_sound {ignD ignF root : List String} {fs : Node}
    {x : WalkItem} (hx : x ∈ walkRoot ignD ignF fs root) :
    (∀ d ∈ x.rel, matchesAny ignD d = false) ∧
    matchesAny ignF x.name = false := by
  unfold walkRoot at hx
  split at hx
  · next n hn =>
    obtain ⟨⟨ext, hrel, hext⟩, hname⟩ := walkNode_sound ignD ignF n [] x hx
    rw [List.nil_append] at hrel
    subst hrel
    exact ⟨hext, hname⟩
  · cases hx

/-- C1: for every entry of a successful `diff_items` run whose stored
record has `unique = false` (content-differing files), `mtimes` and
`sizes` are both present as 2-tuples, `left_to_right` is true exactly
when the first (this-side) mtime is strictly greater than the second,
and an exact mtime tie yields `left_to_right = false`. -/
theorem C1_differing_entry_shape {fs : Node} {pA pB ignD ignF : List String}
    {r : DiffResult} {k : String} {inf : ItemInfo}
    (hd : diff_items fs pA pB ignD ignF = Except.ok r)
    (hm : (k, some inf) ∈ r) (hu : inf.unique = false) :
    ∃ m1 m2 s1 s2, inf.mtimes = some (m1, m2) ∧ inf.sizes = some (s1, s2) ∧
      (inf.left_to_right = true ↔ m1 > m2) ∧
      (m1 = m2 → inf.left_to_right = false) := by
  have hs := diff_entry_shape hd (k, some inf) hm
  rcases hs with h | ⟨b, h⟩ | ⟨m1, m2, s1, s2, onm, h⟩
  · cases h
  · have : inf = ⟨false, true, none, b, none, none⟩ := Option.some.inj h
    rw [this] at hu
    cases hu
  · have hinf : inf = ⟨false, false, some (m1, m2), decide (m1 > m2),
        some (s1, s2), onm⟩ := Option.some.inj h
    subst hinf
    refine ⟨m1, m2, s1, s2, rfl, rfl, by simp, fun hmm => by simp [hmm]⟩

/-- C1 witness: a concrete differing pair (`fsC1w`) instantiating every
hypothesis of `C1_differing_entry_shape`. -/
theorem C1_differing_entry_shape_witness :
    ∃ m1 m2 s1 s2,
      (⟨false, false, some ((7 : Int), (4 : Int)), true,
        some ((2 : Nat), (1 : Nat)), none⟩ : ItemInfo).mtimes = some (m1, m2) ∧
      (⟨false, false, some ((7 : Int), (4 : Int)), true,
        some ((2 : Nat), (1 : Nat)), none⟩ : ItemInfo).sizes = some (s1, s2) ∧
      ((⟨false, false, some ((7 : Int), (4 : Int)), true,
        some ((2 : Nat), (1 : Nat)), none⟩ : ItemInfo).left_to_right = true ↔ m1 > m2) ∧
      (m1 = m2 → (⟨false, false, some ((7 : Int), (4 : Int)), true,
        some ((2 : Nat), (1 : Nat)), none⟩ : ItemInfo).left_to_right = false) :=
  @C1_differing_entry_shape fsC1w ["A"] ["B"] [] []
    [("f.txt", some ⟨false, false, some (7, 4), true, some (2, 1), none⟩)]
    "f.txt" ⟨false, false, some (7, 4), true, some (2, 1), none⟩
    rfl (List.mem_singleton.mpr rfl) rfl

/-- C4: across both passes of a successful `diff_items` run, the
first-pass result is preserved unchanged as a prefix of the final
result (later writes only append, never replace), and no two keys of
the final result are equal ignoring case — every case-insensitive key
class is written exactly once, owned by whichever pass wrote it
first. -/
theorem C4_keys_written_once {fs : Node} {pA pB ignD ignF : List String}
    {r r1 : DiffResult}
    (hd : diff_items fs pA pB ignD ignF = Except.ok r)
    (h1 : compare_one_way fs pA pB ignD ignF [] false = Except.ok r1) :
    (∃ t, r = r1 ++ t) ∧ PairwiseCI r := by
  obtain ⟨r1b, h1b, h2⟩ := diff_items_decomp hd
  rw [h1] at h1b
  have hr : r1b = r1 := (Except.ok.inj h1b).symm
  subst hr
  constructor
  · obtain ⟨t, rfl, -⟩ := processAll_decomp h2
    exact ⟨t, rfl⟩
  · exact processAll_pairwise (processAll_pairwise List.Pairwise.nil h1) h2

/-- C4 witness: the concrete filesystem `fsC4w`, whose first pass
stores `a.txt` and `shared.txt` and whose second pass appends
`b.txt`. -/
theorem C4_keys_written_once_witness :
    (∃ t, [("a.txt", some (⟨false, true, none, true, none, none⟩ : ItemInfo)),
           ("shared.txt", none),
           ("b.txt", some ⟨false, true, none, false, none, none⟩)] =
      [("a.txt", some (⟨false, true, none, true, none, none⟩ : ItemInfo)),
       ("shared.txt", none)] ++ t) ∧
    PairwiseCI [("a.txt", some ⟨false, true, none, true, none, none⟩),
                ("shared.txt", none),
                ("b.txt", some ⟨false, true, none, false, none, none⟩)] :=
  @C4_keys_written_once fsC4w ["A"] ["B"] [] []
    [("a.txt", some ⟨false, true, none, true, none, none⟩),
     ("shared.txt", none),
     ("b.txt", some ⟨false, true, none, false, none, none⟩)]
    [("a.txt", some ⟨false, true, none, true, none, none⟩),
     ("shared.txt", none)]
    rfl rfl

/-- C8: in a successful `diff_items` run, every key of the result comes
from a walk item whose path components all survived the directory
filter and whose filename survived the file filter: no file under a
directory matching an `ignore_dirs` pattern and no file whose name
matches an `ignore_files` pattern ever appears as a key, from either
tree. -/
theorem C8_filtered_never_keys {fs : Node} {pA pB ignD ignF : List String}
    {r : DiffResult}
    (hd : diff_items fs pA pB ignD ignF = Except.ok r) :
    ∀ e ∈ r, ∃ rel name, e.1 = joinSegs (rel ++ [name]) ∧
      (∀ d ∈ rel, matchesAny ignD d = false) ∧
      matchesAny ignF name = false := by
  obtain ⟨r1, h1, h2⟩ := diff_items_decomp hd
  intro e he
  obtain ⟨t1, rfl, ht1⟩ := processAll_decomp h1
  obtain ⟨t2, rfl, ht2⟩ := processAll_decomp h2
  rcases List.mem_append.mp he with he1 | he2
  · obtain ⟨it, hw, hk, -, -⟩ := ht1 e he1
    obtain ⟨hd2, hf2⟩ := walkRoot_sound hw
    exact ⟨it.rel, it.name, hk, hd2, hf2⟩
  · obtain ⟨it, hw, hk, -, -⟩ := ht2 e he2
    obtain ⟨hd2, hf2⟩ := walkRoot_sound hw
    exact ⟨it.rel, it.name, hk, hd2, hf2⟩

/-- C8 witness: with `ignore_dirs = ["build"]` and
`ignore_files = ["skip.txt"]` on `fsC8w`, the only produced key is
`keep.txt`, which indeed decomposes into unfiltered components. -/
theorem C8_filtered_never_keys_witness :
    ∃ rel name,
      (("keep.txt", some (⟨false, true, none, false, none, none⟩ : ItemInfo)) :
        String × Option ItemInfo).1 = joinSegs (rel ++ [name]) ∧
      (∀ d ∈ rel, matchesAny ["build"] d = false) ∧
      matchesAny ["skip.txt"] name = false :=
  @C8_filtered_never_keys fsC8w ["A"] ["B"] ["build"] ["skip.txt"]
    [("keep.txt", some ⟨false, true, none, false, none, none⟩)]
    rfl ("keep.txt", some ⟨false, true, none, false, none, none⟩)
    (List.mem_singleton.mpr rfl)

theorem classifyItem_missing_other {fs : Node} {o : List String} {rev : Bool}
    (it : WalkItem) (h : lookupPath fs o = none) :
    classifyItem fs o rev it =
      Except.ok (some ⟨false, true, none, !rev, none, none⟩) := by
  have h1 : lookupPath fs (o ++ (it.rel ++ [it.name])) = none :=
    lookupPath_append_none h (it.rel ++ [it.name])
  have h2 : lookupPath fs (o ++ it.rel) = none :=
    lookupPath_append_none h it.rel
  simp [classifyItem, match_case_insensitive, h1, h2]

/-- C3 counterexample: with root `A` absent from `fsC3`, `diff_items`
does not fail: it returns an ordinary (non-error, even non-empty)
result, classifying `B`'s file as unique.  The claimed fail-fast error
never happens. -/
theorem C3_counterexample :
    lookupPath fsC3 ["A"] = none ∧
    diff_items fsC3 ["A"] ["B"] [] [] =
      Except.ok [("b.txt", some ⟨false, true, none, false, none, none⟩)] :=
  ⟨rfl, rfl⟩

/-- C3 amended: `diff_items` performs no root validation.  When the
first root does not resolve, `os.walk` silently swallows the failed
`scandir` (with `onerror=None`), so the first pass contributes nothing
and the call still returns a normal result in which every produced
entry marks a second-root file as unique with `left_to_right = false`.
Root-existence checking is left to the caller. -/
theorem C3_missing_root_degrades {fs : Node} {pA pB ignD ignF : List String}
    (hA : lookupPath fs pA = none) :
    compare_one_way fs pA pB ignD ignF [] false = Except.ok [] ∧
    ∀ r, diff_items fs pA pB ignD ignF = Except.ok r →
      ∀ e ∈ r, e.2 = some ⟨false, true, none, false, none, none⟩ := by
  have hw : walkRoot ignD ignF fs pA = [] := by
    unfold walkRoot
    rw [hA]
  constructor
  · unfold compare_one_way
    rw [hw]
    rfl
  · intro r hd
    obtain ⟨r1, h1, h2⟩ := diff_items_decomp hd
    have hr1 : r1 = [] := by
      unfold compare_one_way at h1
      rw [hw] at h1
      exact (Except.ok.inj h1).symm
    subst hr1
    obtain ⟨t, htr, ht⟩ := processAll_decomp h2
    rw [List.nil_append] at htr
    subst htr
    intro e he
    obtain ⟨it, -, -, hcl, -⟩ := ht e he
    rw [classifyItem_missing_other it hA] at hcl
    exact (Except.ok.inj hcl).symm

/-- C3 amended witness: the concrete `fsC3` instance. -/
theorem C3_missing_root_degrades_witness :
    compare_one_way fsC3 ["A"] ["B"] [] [] [] false = Except.ok [] ∧
    (("b.txt", some (⟨false, true, none, false, none, none⟩ : ItemInfo)) :
      String × Option ItemInfo).2 =
      some ⟨false, true, none, false, none, none⟩ :=
  ⟨(@C3_missing_root_degrades fsC3 ["A"] ["B"] [] [] rfl).1,
   (@C3_missing_root_degrades fsC3 ["A"] ["B"] [] [] rfl).2
     [("b.txt", some ⟨false, true, none, false, none, none⟩)] rfl
     ("b.txt", some ⟨false, true, none, false, none, none⟩)
     (List.mem_singleton.mpr rfl)⟩

/-- C9 counterexample: a permission failure while reading file content
is not skipped: on `fsC9read` (same sizes force `filecmp` to open the
files, `B/f` unreadable) the whole `diff_items` operation aborts with
`PermissionError` and no partial result is returned. -/
theorem C9_counterexample :
    diff_items fsC9read ["A"] ["B"] [] [] = Except.error Err.permDenied :=
  rfl

/-- C9 amended: a permission failure while listing a directory during
the walk makes `os.walk` silently skip that subtree and the scan
continues to a normal (partial) result — on `fsC9list` the unlistable
`A/d` is skipped and `g` is still compared — but a permission failure
while reading file content (`filecmp`) propagates and aborts the whole
operation with no result, as does a permission failure while listing
the other-side directory inside `match_case_insensitive`. -/
theorem C9_permission_behaviour :
    (∀ (ignD ignF rel : List String) (es : List (String × Node)),
      walkNode ignD ignF rel (Node.dir false es) = []) ∧
    diff_items fsC9list ["A"] ["B"] [] [] = Except.ok [("g", none)] ∧
    diff_items fsC9read ["A"] ["B"] [] [] = Except.error Err.permDenied :=
  ⟨fun _ _ _ _ => rfl, rfl, rfl⟩

theorem classifyItem_exact_file {fs : Node} {o : List String} {rev : Bool}
    {it : WalkItem} {c2 : Bytes} {m2 : Int} {r2 : Bool} {v : Option ItemInfo}
    (hex : lookupPath fs (o ++ (it.rel ++ [it.name])) = some (Node.file c2 m2 r2))
    (hcl : classifyItem fs o rev it = Except.ok v) :
    (it.content = c2 → v = none) ∧
    (it.content ≠ c2 → v = some ⟨false, false, some (it.mtime, m2),
      decide (it.mtime > m2), some (it.content.length, c2.length), none⟩) := by
  simp only [classifyItem, List.append_assoc, hex, Option.isSome_some,
    if_true, beq_self_eq_true, if_pos] at hcl
  by_cases hcc : it.content = c2
  · refine ⟨fun _ => ?_, fun hne => absurd hcc hne⟩
    rw [filecmpCmp, if_pos (by rw [hcc]), hcc] at hcl
    cases hrd : it.readable && r2 with
    | true =>
      rw [if_pos hrd] at hcl
      simp only [beq_self_eq_true] at hcl
      exact (Except.ok.inj hcl).symm
    | false =>
      rw [if_neg (by simp [hrd])] at hcl
      cases hcl
  · refine ⟨fun hq => absurd hq hcc, fun _ => ?_⟩
    by_cases hlen : it.content.length = c2.length
    · rw [filecmpCmp, if_pos hlen] at hcl
      cases hrd : it.readable && r2 with
      | true =>
        rw [if_pos hrd] at hcl
        rw [show (it.content == c2) = false by simpa using hcc] at hcl
        exact (Except.ok.inj hcl).symm
      | false =>
        rw [if_neg (by simp [hrd])] at hcl
        cases hcl
    · rw [filecmpCmp, if_neg hlen] at hcl
      exact (Except.ok.inj hcl).symm

theorem classifyItem_no_counterpart {fs : Node} {o : List String} {rev : Bool}
    {it : WalkItem}
    (hex : lookupPath fs (o ++ (it.rel ++ [it.name])) = none)
    (hm : match_case_insensitive fs (o ++ it.rel) it.name = Except.ok none) :
    classifyItem fs o rev it =
      Except.ok (some ⟨false, true, none, !rev, none, none⟩) := by
  simp [classifyItem, List.append_assoc, hex, hm]

theorem first_write_from_walk {fs : Node} {o root ignD ignF : List String}
    {rev : Bool} {r r2 : DiffResult} {it : WalkItem}
    (hw : it ∈ walkRoot ignD ignF fs root)
    (hu : ∀ it2 ∈ walkRoot ignD ignF fs root,
      lowerStr (itemKey it2) = lowerStr (itemKey it) → it2 = it)
    (h : processAll fs o rev r (walkRoot ignD ignF fs root) = Except.ok r2)
    (hc : containsCI r (itemKey it) = false) :
    ∃ v, classifyItem fs o rev it = Except.ok v ∧ (itemKey it, v) ∈ r2 := by
  obtain ⟨pre, post, hxs, hnp⟩ := mem_first_decomp hw
  have hpre : ∀ x ∈ pre, lowerStr (itemKey x) ≠ lowerStr (itemKey it) := by
    intro x hx hcon
    have hxw : x ∈ walkRoot ignD ignF fs root := by
      rw [hxs]
      exact List.mem_append_of_mem_left _ hx
    exact hnp (hu x hxw hcon ▸ hx)
  rw [hxs] at h
  exact processAll_first_write hpre hc h

/-- C6: for a walked file whose key class is unambiguous on the first
pass and whose exact counterpart exists as a file on the other side,
byte-identical content yields the equal sentinel under its key, and
differing content yields a differing record — equality is decided by
full byte comparison, so equal mtimes and sizes with different bytes
still classify as differing, never as equal. -/
theorem C6_byte_equality {fs : Node} {pA pB ignD ignF : List String}
    {r : DiffResult} {it : WalkItem} {c2 : Bytes} {m2 : Int} {r2 : Bool}
    (hd : diff_items fs pA pB ignD ignF = Except.ok r)
    (hw : it ∈ walkRoot ignD ignF fs pA)
    (hu : ∀ it2 ∈ walkRoot ignD ignF fs pA,
      lowerStr (itemKey it2) = lowerStr (itemKey it) → it2 = it)
    (hex : lookupPath fs (pB ++ (it.rel ++ [it.name])) = some (Node.file c2 m2 r2)) :
    (it.content = c2 → (itemKey it, none) ∈ r) ∧
    (it.content ≠ c2 →
      (itemKey it, some ⟨false, false, some (it.mtime, m2),
        decide (it.mtime > m2),
        some (it.content.length, c2.length), none⟩) ∈ r) := by
  obtain ⟨r1, h1, h2⟩ := diff_items_decomp hd
  obtain ⟨v, hcl, hmem⟩ := first_write_from_walk hw hu h1 rfl
  obtain ⟨heq, hne⟩ := classifyItem_exact_file hex hcl
  constructor
  · intro hc
    have := heq hc
    subst this
    exact processAll_mem_mono hmem h2
  · intro hc
    have := hne hc
    subst this
    exact processAll_mem_mono hmem h2

/-- C6 witness: on `fsC6w`, `eq.txt` (byte-identical, different
mtimes) resolves to the equal sentinel, and `meta.txt` (equal mtime
and size, different bytes) resolves to a differing record. -/
theorem C6_byte_equality_witness :
    ("meta.txt", some (⟨false, false, some ((5 : Int), (5 : Int)), decide ((5 : Int) > 5),
      some ((1 : Nat), (1 : Nat)), none⟩ : ItemInfo)) ∈
      ([("eq.txt", none),
        ("meta.txt", some ⟨false, false, some (5, 5), false, some (1, 1), none⟩)] :
        DiffResult) :=
  (@C6_byte_equality fsC6w ["A"] ["B"] [] []
    [("eq.txt", none),
     ("meta.txt", some ⟨false, false, some (5, 5), false, some (1, 1), none⟩)]
    ⟨[], "meta.txt", [1], 5, true⟩ [2] 5 true
    rfl (by simp [walkRoot, fsC6w, lookupPath, findEntry, walkNode, fileItems, walkSubdirs, matchesAny])
    (by decide) rfl).2 (by simp)

/-- C7: a walked file of tree A with no exact counterpart and no
case-insensitive match under tree B (and no case-collision with any
other walked key) produces `unique = true` with `left_to_right = true`
in `diff_items(A,B)` and `unique = true` with `left_to_right = false`
in `diff_items(B,A)`; in both directions `mtimes`, `sizes` and
`other_name` are all absent. -/
theorem C7_unique_direction {fs : Node} {pA pB ignD ignF : List String}
    {rAB rBA : DiffResult} {it : WalkItem}
    (h1 : diff_items fs pA pB ignD ignF = Except.ok rAB)
    (h2 : diff_items fs pB pA ignD ignF = Except.ok rBA)
    (hw : it ∈ walkRoot ignD ignF fs pA)
    (huA : ∀ it2 ∈ walkRoot ignD ignF fs pA,
      lowerStr (itemKey it2) = lowerStr (itemKey it) → it2 = it)
    (huB : ∀ itB ∈ walkRoot ignD ignF fs pB,
      lowerStr (itemKey itB) ≠ lowerStr (itemKey it))
    (hex : lookupPath fs (pB ++ (it.rel ++ [it.name])) = none)
    (hm : match_case_insensitive fs (pB ++ it.rel) it.name = Except.ok none) :
    (itemKey it, some ⟨false, true, none, true, none, none⟩) ∈ rAB ∧
    (itemKey it, some ⟨false, true, none, false, none, none⟩) ∈ rBA := by
  constructor
  · obtain ⟨r1, hp1, hp2⟩ := diff_items_decomp h1
    obtain ⟨v, hcl, hmem⟩ := first_write_from_walk hw huA hp1 rfl
    rw [classifyItem_no_counterpart hex hm] at hcl
    have hv : v = some ⟨false, true, none, true, none, none⟩ :=
      (Except.ok.inj hcl).symm
    subst hv
    exact processAll_mem_mono hmem hp2
  · obtain ⟨r1, hp1, hp2⟩ := diff_items_decomp h2
    have hc1 : containsCI r1 (itemKey it) = false := by
      obtain ⟨t, htr, ht⟩ := processAll_decomp hp1
      rw [List.nil_append] at htr
      subst htr
      simp only [containsCI, List.any_eq_false]
      intro e he
      obtain ⟨itB, hwB, hk, -, -⟩ := ht e he
      rw [hk]
      simpa using huB itB hwB
    obtain ⟨v, hcl, hmem⟩ := first_write_from_walk hw huA hp2 hc1
    rw [classifyItem_no_counterpart hex hm] at hcl
    have hv : v = some ⟨false, true, none, false, none, none⟩ :=
      (Except.ok.inj hcl).symm
    subst hv
    exact hmem

/-- C7 witness: `only.txt` exists solely under `A` in `fsC7w`. -/
theorem C7_unique_direction_witness :
    ("only.txt", some (⟨false, true, none, true, none, none⟩ : ItemInfo)) ∈
      ([("only.txt", some ⟨false, true, none, true, none, none⟩)] : DiffResult) ∧
    ("only.txt", some (⟨false, true, none, false, none, none⟩ : ItemInfo)) ∈
      ([("only.txt", some ⟨false, true, none, false, none, none⟩)] : DiffResult) :=
  @C7_unique_direction fsC7w ["A"] ["B"] [] []
    [("only.txt", some ⟨false, true, none, true, none, none⟩)]
    [("only.txt", some ⟨false, true, none, false, none, none⟩)]
    ⟨[], "only.txt", [1], 1, true⟩
    rfl rfl
    (by simp [walkRoot, fsC7w, lookupPath, findEntry, walkNode, fileItems,
      walkSubdirs, matchesAny])
    (by decide) (by decide) rfl rfl

/-- C10 counterexample: on `fsC10` (both roots exist; `A/d` is
unlistable but traversable) the first pass stores nothing, and the
reverse pass stores a `unique = false` entry whose `mtimes`/`sizes`
are ordered (right-tree, left-tree) with an uncorrected
`left_to_right` — refuting that every reverse-pass entry is unique. -/
theorem C10_counterexample :
    compare_one_way fsC10 ["A"] ["B"] [] [] [] false = Except.ok [] ∧
    diff_items fsC10 ["A"] ["B"] [] [] =
      Except.ok [("d/f",
        some ⟨false, false, some (20, 10), true, some (1, 1), none⟩)] :=
  ⟨rfl, rfl⟩

/-- C10 amended: when every directory of the filesystem is listable
and no ignore patterns are given, every entry the reverse pass adds on
top of the first-pass result is a unique-file record with
`left_to_right = false`; equivalently all equal and differing entries
are then created during the first pass, in (left, right) order.
Without the listability condition (or with filters that hit the two
sides asymmetrically) this fails, as `C10_counterexample` shows. -/
theorem C10_reverse_pass_unique {fs : Node} {pA pB : List String}
    {r r1 : DiffResult}
    (hall : fs.allListable = true)
    (hd : diff_items fs pA pB [] [] = Except.ok r)
    (h1 : compare_one_way fs pA pB [] [] [] false = Except.ok r1) :
    ∀ e ∈ r, e ∈ r1 ∨ e.2 = some ⟨false, true, none, false, none, none⟩ := by
  obtain ⟨r1b, h1b, h2⟩ := diff_items_decomp hd
  rw [h1] at h1b
  have hr : r1 = r1b := Except.ok.inj h1b
  subst hr
  intro e he
  obtain ⟨t, rfl, ht⟩ := processAll_decomp h2
  rcases List.mem_append.mp he with he1 | he2
  · exact Or.inl he1
  · right
    by_contra hne
    obtain ⟨it, hwB, hk, hcl, hcc⟩ := ht e he2
    obtain ⟨ob, c2, m2, r2, hlow, hlk⟩ :=
      classifyItem_found hcl (by simpa using hne)
    rw [List.append_assoc] at hlk
    cases hA : lookupPath fs pA with
    | none =>
      rw [lookupPath_append_none hA] at hlk
      cases hlk
    | some tA =>
      rw [lookupPath_append_some hA] at hlk
      have htAl : tA.allListable = true := allListable_lookup hall hA
      have hitem := @walkNode_complete [] [] it.rel tA [] ob c2 m2 r2
        htAl hlk (fun d _ => rfl) rfl
      have hwitem : (⟨it.rel, ob, c2, m2, r2⟩ : WalkItem) ∈
          walkRoot [] [] fs pA := by
        unfold walkRoot
        rw [hA]
        simpa using hitem
      have hclaim : containsCI r1 (itemKey ⟨it.rel, ob, c2, m2, r2⟩) = true :=
        processAll_claims h1 hwitem
      have hkeys : lowerStr (itemKey ⟨it.rel, ob, c2, m2, r2⟩) =
          lowerStr (itemKey it) := by
        unfold itemKey
        exact joinSegs_lower_congr hlow it.rel
      rw [containsCI_congr r1 hkeys, hcc] at hclaim
      cases hclaim

/-- C10 amended witness: on the fully listable `fsC4w`, the entry the
reverse pass appends (`b.txt`) is a unique record with
`left_to_right = false`. -/
theorem C10_reverse_pass_unique_witness :
    ("b.txt", some (⟨false, true, none, false, none, none⟩ : ItemInfo)) ∈
      ([("a.txt", some ⟨false, true, none, true, none, none⟩),
        ("shared.txt", none)] : DiffResult) ∨
    (("b.txt", some (⟨false, true, none, false, none, none⟩ : ItemInfo)) :
      String × Option ItemInfo).2 =
      some ⟨false, true, none, false, none, none⟩ :=
  @C10_reverse_pass_unique fsC4w ["A"] ["B"]
    [("a.txt", some ⟨false, true, none, true, none, none⟩),
     ("shared.txt", none),
     ("b.txt", some ⟨false, true, none, false, none, none⟩)]
    [("a.txt", some ⟨false, true, none, true, none, none⟩),
     ("shared.txt", none)]
    rfl rfl rfl
    ("b.txt", some ⟨false, true, none, false, none, none⟩) (by simp)

/-- C2: when tree A's `d/<n>` has its counterpart in tree B found only
via case-insensitive basename resolution (exact path absent, parent
`d` present containing `<b>` with the same lowering): equal content
yields a single equal-sentinel entry under A's key (not two uniques),
differing content yields a single `unique = false` entry whose
`other_name` is the key's directory prefix joined with the matched
basename; and when the basenames are identical (exact match) the
entry's `other_name` is `None`. -/
theorem C2_case_variant_matching (n b : String) (c1 c2 : Bytes) (m1 m2 : Int)
    (hne : n ≠ b) (hlow : lowerStr n = lowerStr b) :
    diff_items (fsC2 n b c1 c2 m1 m2) ["A"] ["B"] [] [] =
      Except.ok [(joinSegs ["d", n],
        if c1 == c2 then none
        else some ⟨false, false, some (m1, m2), decide (m1 > m2),
          some (c1.length, c2.length), some (joinSegs ["d", b])⟩)] ∧
    diff_items (fsC2 n n c1 c2 m1 m2) ["A"] ["B"] [] [] =
      Except.ok [(joinSegs ["d", n],
        if c1 == c2 then none
        else some ⟨false, false, some (m1, m2), decide (m1 > m2),
          some (c1.length, c2.length), none⟩)] := by
  have hbn : (b == n) = false := by simpa using hne.symm
  have hnb : (n == b) = false := by simpa using hne
  have hlbn : (lowerStr b == lowerStr n) = true := by rw [hlow]; simp
  have hkey : (lowerStr (joinSegs (["d"] ++ [n])) ==
      lowerStr (joinSegs (["d"] ++ [b]))) = true := by
    rw [joinSegs_lower_congr hlow]
    simp
  simp only [List.cons_append, List.nil_append] at hkey
  constructor
  · cases hc : c1 == c2 with
    | true =>
      have hceq : c1 = c2 := by simpa using hc
      simp +decide only [diff_items, compare_one_way, walkRoot, fsC2,
        lookupPath, findEntry, walkNode, fileItems, walkSubdirs, matchesAny,
        List.any_nil, if_false, Bool.false_eq_true, ite_false, ite_true,
        if_true, processAll, processItem, containsCI, itemKey, classifyItem,
        match_case_insensitive, firstLowerMatch, filecmpCmp, List.append_nil,
        List.nil_append, List.cons_append, List.append_eq, beq_self_eq_true,
        List.any_cons, Bool.and_self, hbn, hnb, hlbn, hkey, hc, hceq]
    | false =>
      simp +decide only [diff_items, compare_one_way, walkRoot, fsC2,
        lookupPath, findEntry, walkNode, fileItems, walkSubdirs, matchesAny,
        List.any_nil, if_false, Bool.false_eq_true, ite_false, ite_true,
        if_true, processAll, processItem, containsCI, itemKey, classifyItem,
        match_case_insensitive, firstLowerMatch, filecmpCmp, List.append_nil,
        List.nil_append, List.cons_append, List.append_eq, beq_self_eq_true,
        List.any_cons, Bool.and_self, ite_self, hbn, hnb, hlbn, hkey, hc]
  · cases hc : c1 == c2 with
    | true =>
      have hceq : c1 = c2 := by simpa using hc
      simp +decide only [diff_items, compare_one_way, walkRoot, fsC2,
        lookupPath, findEntry, walkNode, fileItems, walkSubdirs, matchesAny,
        List.any_nil, if_false, Bool.false_eq_true, ite_false, ite_true,
        if_true, processAll, processItem, containsCI, itemKey, classifyItem,
        match_case_insensitive, firstLowerMatch, filecmpCmp, List.append_nil,
        List.nil_append, List.cons_append, List.append_eq, beq_self_eq_true,
        List.any_cons, Bool.and_self, Option.isSome_some, hc, hceq]
    | false =>
      simp +decide only [diff_items, compare_one_way, walkRoot, fsC2,
        lookupPath, findEntry, walkNode, fileItems, walkSubdirs, matchesAny,
        List.any_nil, if_false, Bool.false_eq_true, ite_false, ite_true,
        if_true, processAll, processItem, containsCI, itemKey, classifyItem,
        match_case_insensitive, firstLowerMatch, filecmpCmp, List.append_nil,
        List.nil_append, List.cons_append, List.append_eq, beq_self_eq_true,
        List.any_cons, Bool.and_self, ite_self, Option.isSome_some, hc]

/-- C2 witness: the spec's own `README.md` / `readme.md` example with
differing one-byte contents. -/
theorem C2_case_variant_matching_witness :
    diff_items (fsC2 "README.md" "readme.md" [1] [2] 3 9) ["A"] ["B"] [] [] =
      Except.ok [(joinSegs ["d", "README.md"],
        if ([1] : Bytes) == [2] then none
        else some ⟨false, false, some (3, 9), decide ((3 : Int) > 9),
          some ((1 : Nat), (1 : Nat)), some (joinSegs ["d", "readme.md"])⟩)] ∧
    diff_items (fsC2 "README.md" "README.md" [1] [2] 3 9) ["A"] ["B"] [] [] =
      Except.ok [(joinSegs ["d", "README.md"],
        if ([1] : Bytes) == [2] then none
        else some ⟨false, false, some (3, 9), decide ((3 : Int) > 9),
          some ((1 : Nat), (1 : Nat)), none⟩)] :=
  C2_case_variant_matching "README.md" "readme.md" [1] [2] 3 9
    (by decide) (by decide)

/-- C5 counterexample: on the exact-mtime-tie filesystem `fsC5tie`,
`diff(A,B)` and `diff(B,A)` produce identical entries with
`left_to_right = false` on both sides, so the flags are not logical
negations of each other as the claim requires. -/
theorem C5_counterexample :
    diff_items fsC5tie ["A"] ["B"] [] [] =
      Except.ok [("f", some ⟨false, false, some (5, 5), false,
        some (1, 1), none⟩)] ∧
    diff_items fsC5tie ["B"] ["A"] [] [] =
      Except.ok [("f", some ⟨false, false, some (5, 5), false,
        some (1, 1), none⟩)] ∧
    ¬ (false = !false) :=
  ⟨rfl, rfl, by decide⟩

/-- C5 amended: on a pair of roots sharing `f.txt` with differing
content (plus one unique file on each side), the two diff directions
have the same key set, each unique entry's direction flips, and the
differing entry's `mtimes`/`sizes` tuples are swapped; the
`left_to_right` flags are the two strict mtime comparisons in opposite
orders — mutual negations whenever the mtimes differ, but both `false`
on an exact tie.  (The unrestricted symmetry claim also fails for
case-variant names, asymmetric filtering, or unreadable directories.) -/
theorem C5_symmetry_scenario (c1 : Bytes) (m1 : Int) (c2 : Bytes) (m2 : Int)
    (cu : Bytes) (mu : Int) (cv : Bytes) (mv : Int) (hne : c1 ≠ c2) :
    diff_items (fsC5 c1 m1 c2 m2 cu mu cv mv) ["A"] ["B"] [] [] =
      Except.ok [("f.txt", some ⟨false, false, some (m1, m2), decide (m1 > m2),
          some (c1.length, c2.length), none⟩),
        ("u.txt", some ⟨false, true, none, true, none, none⟩),
        ("v.txt", some ⟨false, true, none, false, none, none⟩)] ∧
    diff_items (fsC5 c1 m1 c2 m2 cu mu cv mv) ["B"] ["A"] [] [] =
      Except.ok [("f.txt", some ⟨false, false, some (m2, m1), decide (m2 > m1),
          some (c2.length, c1.length), none⟩),
        ("v.txt", some ⟨false, true, none, true, none, none⟩),
        ("u.txt", some ⟨false, true, none, false, none, none⟩)] ∧
    (([("f.txt", some ⟨false, false, some (m1, m2), decide (m1 > m2),
          some (c1.length, c2.length), none⟩),
        ("u.txt", some ⟨false, true, none, true, none, none⟩),
        ("v.txt", some ⟨false, true, none, false, none, none⟩)] :
        DiffResult).map Prod.fst).Perm
      (([("f.txt", some ⟨false, false, some (m2, m1), decide (m2 > m1),
          some (c2.length, c1.length), none⟩),
        ("v.txt", some ⟨false, true, none, true, none, none⟩),
        ("u.txt", some ⟨false, true, none, false, none, none⟩)] :
        DiffResult).map Prod.fst) ∧
    (m1 ≠ m2 → decide (m2 > m1) = !(decide (m1 > m2))) ∧
    (m1 = m2 → decide (m1 > m2) = false ∧ decide (m2 > m1) = false) := by
  have h12 : (c1 == c2) = false := by simpa using hne
  have h21 : (c2 == c1) = false := by simpa using hne.symm
  refine ⟨?_, ?_, ?_, ?_, ?_⟩
  · simp +decide only [diff_items, compare_one_way, walkRoot, fsC5,
      lookupPath, findEntry, walkNode, fileItems, walkSubdirs, matchesAny,
      List.any_nil, if_false, Bool.false_eq_true, ite_false, ite_true,
      if_true, processAll, processItem, containsCI, itemKey, classifyItem,
      match_case_insensitive, firstLowerMatch, filecmpCmp, List.append_nil,
      List.nil_append, List.cons_append, List.append_eq, beq_self_eq_true,
      List.any_cons, Bool.and_self, ite_self, Option.isSome_some, joinSegs,
      Bool.not_false, Bool.not_true, h12, h21]
  · simp +decide only [diff_items, compare_one_way, walkRoot, fsC5,
      lookupPath, findEntry, walkNode, fileItems, walkSubdirs, matchesAny,
      List.any_nil, if_false, Bool.false_eq_true, ite_false, ite_true,
      if_true, processAll, processItem, containsCI, itemKey, classifyItem,
      match_case_insensitive, firstLowerMatch, filecmpCmp, List.append_nil,
      List.nil_append, List.cons_append, List.append_eq, beq_self_eq_true,
      List.any_cons, Bool.and_self, ite_self, Option.isSome_some, joinSegs,
      Bool.not_false, Bool.not_true, h12, h21]
  · simp only [List.map_cons, List.map_nil]
    refine List.Perm.cons _ (List.Perm.swap _ _ _)
  · intro h
    by_cases h2 : m1 > m2
    · have h3 : ¬ (m2 > m1) := by omega
      simp [h2, h3]
    · have h3 : m2 > m1 := by omega
      simp [h2, h3]
  · intro h
    subst h
    simp

/-- C5 amended witness: a concrete instance with an exact mtime tie,
exercising the both-flags-false clause. -/
theorem C5_symmetry_scenario_witness :
    diff_items (fsC5 [1] 5 [2] 5 [3] 1 [4] 2) ["A"] ["B"] [] [] =
      Except.ok [("f.txt", some ⟨false, false, some (5, 5), decide ((5 : Int) > 5),
          some ((1 : Nat), (1 : Nat)), none⟩),
        ("u.txt", some ⟨false, true, none, true, none, none⟩),
        ("v.txt", some ⟨false, true, none, false, none, none⟩)] ∧
    diff_items (fsC5 [1] 5 [2] 5 [3] 1 [4] 2) ["B"] ["A"] [] [] =
      Except.ok [("f.txt", some ⟨false, false, some (5, 5), decide ((5 : Int) > 5),
          some ((1 : Nat), (1 : Nat)), none⟩),
        ("v.txt", some ⟨false, true, none, true, none, none⟩),
        ("u.txt", some ⟨false, true, none, false, none, none⟩)] ∧
    (([("f.txt", some ⟨false, false, some (5, 5), decide ((5 : Int) > 5),
          some ((1 : Nat), (1 : Nat)), none⟩),
        ("u.txt", some ⟨false, true, none, true, none, none⟩),
        ("v.txt", some ⟨false, true, none, false, none, none⟩)] :
        DiffResult).map Prod.fst).Perm
      (([("f.txt", some ⟨false, false, some (5, 5), decide ((5 : Int) > 5),
          some ((1 : Nat), (1 : Nat)), none⟩),
        ("v.txt", some ⟨false, true, none, true, none, none⟩),
        ("u.txt", some ⟨false, true, none, false, none, none⟩)] :
        DiffResult).map Prod.fst) ∧
    ((5 : Int) ≠ 5 → decide ((5 : Int) > 5) = !(decide ((5 : Int) > 5))) ∧
    ((5 : Int) = 5 → decide ((5 : Int) > 5) = false ∧ decide ((5 : Int) > 5) = false) :=
  C5_symmetry_scenario [1] 5 [2] 5 [3] 1 [4] 2 (by decide)
